import Mathlib

/-!
Shallow embedding of the spot-price planning engine of `jarvis-lib`
(`src/model/spot_price_planner.rs` and `src/model/spot_price.rs`).

Modelling conventions:
* UTC instants (`DateTime<Utc>`) and naive local date-times (`NaiveDateTime`)
  are integers counting seconds since the epoch (1970-01-01 00:00:00, a
  Thursday).  Chrono's `Duration` arithmetic on instants is plain integer
  arithmetic on seconds.
* Monetary `f64` values are modelled as exact rationals (`ℚ`), i.e. the
  real-number semantics of the arithmetic in the source.
* A chrono-tz `Tz` is modelled by its two conversions: `utcToLocal` sends a
  UTC instant to the naive local date-time (total, as in chrono), and
  `localToUtc` sends a naive local date-time to a UTC instant when that local
  time exists and is unambiguous in the zone; `none` models both a
  daylight-saving gap (`LocalResult::None`) and an ambiguous local time
  (`LocalResult::Ambiguous`), on which `.unwrap()` panics.
* Fallible paths are explicit: `Outcome.err` models the `Err` return of
  `Result` (time-zone resolution failure), `Outcome.panicked` models a Rust
  panic (`unwrap` on a missing local time, or an `assert_eq!` failure).
* `usize` casts (`as usize`) reduce the integer modulo `2 ^ 64`, as in Rust
  release builds.
-/

/-- A chrono `NaiveTime`, counted in seconds from local midnight. -/
structure NaiveTime where
  secs : Nat
deriving DecidableEq

/-- `NaiveTime::hour()`. -/
def NaiveTime.hour (t : NaiveTime) : Nat := t.secs / 3600

/-- `NaiveTime::minute()`. -/
def NaiveTime.minute (t : NaiveTime) : Nat := t.secs % 3600 / 60

/-- `NaiveTime::second()`. -/
def NaiveTime.second (t : NaiveTime) : Nat := t.secs % 60

/-- A chrono-tz `Tz`, given by its two conversions (see the header comment). -/
structure Tz where
  utcToLocal : Int → Int
  localToUtc : Int → Option Int

/-- `DateTime::date_naive()` composed with the day number of a naive
date-time: naive seconds are floored to whole days. -/
def localDayOf (tz : Tz) (instant : Int) : Int :=
  (tz.utcToLocal instant).fdiv 86400

/-- `Datelike::weekday()` of a naive day number, encoded as
`num_days_from_monday` (0 = Mon .. 6 = Sun); day 0 (1970-01-01) is a
Thursday, i.e. 3. -/
def weekdayOf (day : Int) : Int := (day + 3) % 7

/-- `SpotPrice` (`src/model/spot_price.rs`).  The Rust field `from` is a Lean
keyword and is embedded as `fromUtc`. -/
structure SpotPrice where
  id : Option String
  source : Option String
  fromUtc : Int
  till : Int
  market_price : ℚ
  market_price_tax : ℚ
  sourcing_markup_price : ℚ
  energy_tax_price : ℚ
deriving DecidableEq

/-- `SpotPrice::total_price`. -/
def SpotPrice.total_price (p : SpotPrice) : ℚ :=
  p.market_price + p.market_price_tax + p.sourcing_markup_price + p.energy_tax_price

/-- `SpotPrice::duration_seconds` (`(till - from).num_seconds()`). -/
def SpotPrice.duration_seconds (p : SpotPrice) : Int := p.till - p.fromUtc

/-- `LoadProfileSection`. -/
structure LoadProfileSection where
  duration_seconds : Int
  power_draw_watt : ℚ
deriving DecidableEq

/-- `LoadProfile`. -/
structure LoadProfile where
  sections : List LoadProfileSection
deriving DecidableEq

/-- `LoadProfile::total_duration_seconds`. -/
def LoadProfile.total_duration_seconds (lp : LoadProfile) : Int :=
  (lp.sections.map (fun s => s.duration_seconds)).sum

/-- `PlanningStrategy`. -/
inductive PlanningStrategy where
  | LowestPrice
  | HighestPrice
deriving DecidableEq

/-- `TimeSlot`; the Rust field `from` is embedded as `fromT`. -/
structure TimeSlot where
  fromT : NaiveTime
  till : NaiveTime
deriving DecidableEq

/-- `SpotPricePlannerConfig`.  The `local_time_zone: String` field together
with `get_local_time_zone` (the `parse::<Tz>()` call) is embedded as the
parse result itself: `some tz` when the IANA identifier resolves, `none`
when it does not.  The `HashMap<Weekday, Vec<TimeSlot>>` is embedded as an
association list keyed by the weekday number. -/
structure SpotPricePlannerConfig where
  plannable_local_time_slots : List (Int × List TimeSlot)
  local_time_zone : Option Tz
  load_profile : LoadProfile

/-- `PlanningRequest`. -/
structure PlanningRequest where
  spot_prices : List SpotPrice
  load_profile : LoadProfile
  planning_strategy : PlanningStrategy
  after : Option Int
  before : Option Int

/-- `PlanningResponse`. -/
structure PlanningResponse where
  spot_prices : List SpotPrice
  load_profile : LoadProfile
deriving DecidableEq

/-- Result channel of the planner entry points: `err` is the `Err` value of
the Rust `Result`, `panicked` is a Rust panic (failed `unwrap`/`assert_eq!`),
`ok` is the `Ok` value. -/
inductive Outcome (α : Type) where
  | err : Outcome α
  | panicked : Outcome α
  | ok : α → Outcome α
deriving DecidableEq

/-- A Rust `as usize` cast of a 64-bit signed integer (two's-complement
wrap), followed by reading the result as a natural number. -/
def asUsize (i : Int) : Nat := (i % (2 ^ 64 : Int)).toNat

/-- The per-second price of one spot price inside `total_price_for_load`:
`get_price_fn.unwrap_or(|sp| sp.total_price())(spot_price) / (3600_f64 * 1000_f64)`. -/
def pricePerSecond (get_price_fn : Option (SpotPrice → ℚ)) (p : SpotPrice) : ℚ :=
  (get_price_fn.getD SpotPrice.total_price) p / (3600 * 1000)

/-- The `spot_price_per_second` vector built by the first loop of
`total_price_for_load`; `len` tracks `spot_price_per_second.len()` at the
start of each iteration. -/
def buildPriceSeries (get_price_fn : Option (SpotPrice → ℚ)) (required : Nat) :
    Nat → List SpotPrice → List ℚ
  | _, [] => []
  | len, p :: rest =>
    let seconds_still_needed := min (asUsize p.duration_seconds) (required - len)
    List.replicate seconds_still_needed (pricePerSecond get_price_fn p) ++
      buildPriceSeries get_price_fn required (len + seconds_still_needed) rest

/-- The `power_draw_per_second` vector built by the second loop of
`total_price_for_load`. -/
def powerSeries (lp : LoadProfile) : List ℚ :=
  lp.sections.flatMap (fun s => List.replicate (asUsize s.duration_seconds) s.power_draw_watt)

/-- `total_price_for_load`.  The two `assert_eq!` length checks are modelled
by the inner `if`; a failed assertion is a panic, i.e. `none`. -/
def total_price_for_load (spot_prices : List SpotPrice) (load_profile : LoadProfile)
    (get_price_fn : Option (SpotPrice → ℚ)) : Option ℚ :=
  if spot_prices = [] ∨ load_profile.sections = [] then some 0
  else
    let total_required_seconds := asUsize load_profile.total_duration_seconds
    let spot_price_per_second := buildPriceSeries get_price_fn total_required_seconds 0 spot_prices
    let power_draw_per_second := powerSeries load_profile
    if spot_price_per_second.length = total_required_seconds ∧
        power_draw_per_second.length = total_required_seconds then
      some (List.zipWith (fun x y => x * y) spot_price_per_second power_draw_per_second).sum
    else none

/-- The `time_slot_from` value inside `get_plannable_spot_prices`:
`local_from.date_naive().and_hms_opt(h, m, s).unwrap().and_local_timezone(tz)`;
`day` is the local day number of `local_from`.  `none` is the `.unwrap()`
panic on a missing/ambiguous local time. -/
def timeSlotFromInstant (tz : Tz) (day : Int) (time_slot : TimeSlot) : Option Int :=
  tz.localToUtc (day * 86400 +
    (time_slot.fromT.hour * 3600 + time_slot.fromT.minute * 60 + time_slot.fromT.second))

/-- The `time_slot_till` value inside `get_plannable_spot_prices`: the slot's
end time on `local_from`'s local date, plus `Duration::days(1)` when
`time_slot.till.hour() > 0` fails (i.e. when the end hour is 0). -/
def timeSlotTillInstant (tz : Tz) (day : Int) (time_slot : TimeSlot) : Option Int :=
  if time_slot.till.hour > 0 then
    tz.localToUtc (day * 86400 +
      (time_slot.till.hour * 3600 + time_slot.till.minute * 60 + time_slot.till.second))
  else
    (tz.localToUtc (day * 86400 +
      (time_slot.till.hour * 3600 + time_slot.till.minute * 60 + time_slot.till.second))).map
      (fun t => t + 86400)

/-- The short-circuiting `plannable_local_time_slots.iter().any(...)` of
`get_plannable_spot_prices`; `none` is a panic inside the closure. -/
def slotAny (tz : Tz) (day localFrom localTill : Int) : List TimeSlot → Option Bool
  | [] => some false
  | s :: rest =>
    match timeSlotFromInstant tz day s, timeSlotTillInstant tz day s with
    | some slotFrom, some slotTill =>
      if localFrom ≥ slotFrom ∧ localFrom < slotTill ∧ localTill > slotFrom ∧
          localTill ≤ slotTill then some true
      else slotAny tz day localFrom localTill rest
    | some _, none => none
    | none, _ => none

/-- The filter closure of `get_plannable_spot_prices`, for one spot price.
`local_from`/`local_till` keep the instant of `from`/`till` (chrono
`with_timezone` does not change the instant, and `DateTime` ordering compares
instants), so the bound checks and containment checks compare instants. -/
def spotPricePlannable (cfg : SpotPricePlannerConfig) (tz : Tz)
    (after before : Option Int) (p : SpotPrice) : Option Bool :=
  if (match after with | some a => decide (p.fromUtc < a) | none => false) then some false
  else if (match before with | some b => decide (p.till > b) | none => false) then some false
  else
    match cfg.plannable_local_time_slots.lookup (weekdayOf (localDayOf tz p.fromUtc)) with
    | some slots => slotAny tz (localDayOf tz p.fromUtc) p.fromUtc p.till slots
    | none => some false

/-- The whole `spot_prices.iter().filter(...)` pipeline; `none` is a panic in
any filter invocation. -/
def filterPlannable (cfg : SpotPricePlannerConfig) (tz : Tz)
    (after before : Option Int) : List SpotPrice → Option (List SpotPrice)
  | [] => some []
  | p :: rest =>
    match spotPricePlannable cfg tz after before p with
    | none => none
    | some b =>
      (filterPlannable cfg tz after before rest).map (fun r => if b then p :: r else r)

/-- `SpotPricePlanner::get_plannable_spot_prices`. -/
def get_plannable_spot_prices (cfg : SpotPricePlannerConfig) (spot_prices : List SpotPrice)
    (after before : Option Int) : Outcome (List SpotPrice) :=
  match cfg.local_time_zone with
  | none => .err
  | some tz =>
    match filterPlannable cfg tz after before spot_prices with
    | none => .panicked
    | some l => .ok l

/-- The inner look-ahead loop of `get_best_spot_prices`: starting from the
accumulated `selected_seconds = secs`, keep taking consecutive spot prices
while the accumulated duration is below `required`.  Returns the list of
extra prices pushed and the final `selected_seconds`. -/
def extendBlock (required : Int) (secs : Int) : List SpotPrice → List SpotPrice × Int
  | [] => ([], secs)
  | q :: rest =>
    if secs < required then
      let r := extendBlock required (secs + q.duration_seconds) rest
      (q :: r.1, r.2)
    else ([], secs)

/-- The outer `while let Some(spot_price)` loop of `get_best_spot_prices`,
carrying `best_spot_prices`; `none` is a panic inside
`total_price_for_load`. -/
def bestLoop (required : Int) (strategy : PlanningStrategy) (lp : LoadProfile) :
    List SpotPrice → List SpotPrice → Option (List SpotPrice)
  | best, [] => some best
  | best, p :: rest =>
    let e := extendBlock required p.duration_seconds rest
    if e.2 < required then some best
    else if best.isEmpty then bestLoop required strategy lp (p :: e.1) rest
    else
      match total_price_for_load best lp none, total_price_for_load (p :: e.1) lp none with
      | some total_price_previous, some total_price_current =>
        let newBest :=
          match strategy with
          | .LowestPrice =>
            if total_price_current < total_price_previous then p :: e.1 else best
          | .HighestPrice =>
            if total_price_current > total_price_previous then p :: e.1 else best
        bestLoop required strategy lp newBest rest
      | _, _ => none

/-- `SpotPricePlanner::get_best_spot_prices`. -/
def get_best_spot_prices (cfg : SpotPricePlannerConfig) (request : PlanningRequest) :
    Outcome PlanningResponse :=
  match get_plannable_spot_prices cfg request.spot_prices request.after request.before with
  | .err => .err
  | .panicked => .panicked
  | .ok plannable =>
    if plannable.isEmpty then .ok ⟨plannable, request.load_profile⟩
    else
      match bestLoop request.load_profile.total_duration_seconds request.planning_strategy
          request.load_profile [] plannable with
      | none => .panicked
      | some best => .ok ⟨best, request.load_profile⟩

/-! ### Specification-side definitions

Pure (total, Boolean) restatements of the filter predicate and of the
candidate blocks inspected by the selector, used to state the claims. -/

/-- The per-slot containment test as a total Boolean, with the branch
structure of the source closure: the interval `[pf, pt]` is contained in the
slot placed on local day `day` when both slot boundaries resolve and
`local_from >= slot_from && local_from < slot_till && local_till > slot_from
&& local_till <= slot_till`. -/
def slotContains (tz : Tz) (day pf pt : Int) (s : TimeSlot) : Bool :=
  match timeSlotFromInstant tz day s, timeSlotTillInstant tz day s with
  | some slotFrom, some slotTill =>
    decide (pf ≥ slotFrom) && decide (pf < slotTill) && decide (pt > slotFrom) &&
      decide (pt ≤ slotTill)
  | _, _ => false

/-- The plannability predicate as the specification words it: keep a spot
price iff it passes the optional `after`/`before` bounds, its local weekday
has configured slots, and some slot placed on the local calendar date of
`local_from` (with the day-wraparound rule of `timeSlotTillInstant`) contains
the interval.  A slot whose boundary does not resolve to a unique local
instant contributes no containment. -/
def specPlannable (cfg : SpotPricePlannerConfig) (tz : Tz)
    (after before : Option Int) (p : SpotPrice) : Bool :=
  (match after with | some a => decide (p.fromUtc ≥ a) | none => true) &&
  (match before with | some b => decide (p.till ≤ b) | none => true) &&
  (match cfg.plannable_local_time_slots.lookup (weekdayOf (localDayOf tz p.fromUtc)) with
   | none => false
   | some slots =>
     slots.any (slotContains tz (localDayOf tz p.fromUtc) p.fromUtc p.till))

/-- All suffixes of a list, longest first (the successive states of the outer
iterator of `get_best_spot_prices`). -/
def suffixes : List SpotPrice → List (List SpotPrice)
  | [] => [[]]
  | p :: rest => (p :: rest) :: suffixes rest

/-- The complete candidate block starting at the head of a suffix: the
shortest consecutive run from there whose summed duration reaches
`required`, or `none` when even the whole suffix falls short. -/
def candidateAt (required : Int) : List SpotPrice → Option (List SpotPrice)
  | [] => none
  | p :: rest =>
    let e := extendBlock required p.duration_seconds rest
    if e.2 < required then none else some (p :: e.1)

/-- All complete candidate blocks, in order of their starting index. -/
def completeCandidates (required : Int) (l : List SpotPrice) : List (List SpotPrice) :=
  (suffixes l).filterMap (candidateAt required)

/-- The evaluated total price of a candidate block under the default price
function (total value of `total_price_for_load`, which is defined whenever
the two length assertions hold). -/
def evalPrice (lp : LoadProfile) (c : List SpotPrice) : ℚ :=
  (total_price_for_load c lp none).getD 0

/-- Sum of the durations of a run of spot prices. -/
def sumDuration (l : List SpotPrice) : Int :=
  (l.map (fun p => p.duration_seconds)).sum

/-- `slot_till` as claim C1 words it: the slot's end time on the given local
calendar date, plus one day exactly when the end time-of-day is midnight
(00:00:00).  Modelled from the spec: this is the refinement target against
`timeSlotTillInstant`, which is the computation of the source. -/
def timeSlotTillInstantPerClaim (tz : Tz) (day : Int) (time_slot : TimeSlot) : Option Int :=
  if time_slot.till.secs = 0 then
    (tz.localToUtc (day * 86400 + (time_slot.till.secs : Int))).map (fun t => t + 86400)
  else
    tz.localToUtc (day * 86400 + (time_slot.till.secs : Int))

/-! ### Lemmas about the cost evaluator -/

/-- Sum of the `as usize`-cast durations of a list of spot prices. -/
def sumUsize (l : List SpotPrice) : Nat :=
  (l.map (fun p => asUsize p.duration_seconds)).sum

theorem buildPriceSeries_length (f : Option (SpotPrice → ℚ)) (required : Nat)
    (l : List SpotPrice) : ∀ len : Nat,
    (buildPriceSeries f required len l).length = min (required - len) (sumUsize l) := by
  induction l with
  | nil => intro len; simp [buildPriceSeries, sumUsize]
  | cons p rest ih =>
    intro len
    simp only [buildPriceSeries, List.length_append, List.length_replicate, ih,
      sumUsize, List.map_cons, List.sum_cons]
    have h : required - (len + min (asUsize p.duration_seconds) (required - len)) =
        required - len - min (asUsize p.duration_seconds) (required - len) := by omega
    rw [h]
    omega

theorem powerSeries_length (lp : LoadProfile) :
    (powerSeries lp).length = (lp.sections.map (fun s => asUsize s.duration_seconds)).sum := by
  simp [powerSeries, List.length_flatMap, Function.comp_def]

theorem sum_toNat_le (l : List Int) : l.sum.toNat ≤ (l.map Int.toNat).sum := by
  induction l with
  | nil => simp
  | cons a rest ih =>
    simp only [List.sum_cons, List.map_cons]
    calc (a + rest.sum).toNat ≤ a.toNat + rest.sum.toNat := by omega
    _ ≤ a.toNat + (rest.map Int.toNat).sum := by omega

theorem sum_toNat_of_nonneg (l : List Int) (h : ∀ x ∈ l, 0 ≤ x) :
    (l.map Int.toNat).sum = l.sum.toNat := by
  induction l with
  | nil => simp
  | cons a rest ih =>
    have ha : 0 ≤ a := h a (List.mem_cons_self a rest)
    have hs : 0 ≤ rest.sum := List.sum_nonneg (fun x hx => h x (List.mem_cons_of_mem a hx))
    simp only [List.map_cons, List.sum_cons, ih (fun x hx => h x (List.mem_cons_of_mem a hx))]
    omega

theorem asUsize_of_small (i : Int) (h0 : 0 ≤ i) (h1 : i < 2 ^ 63) : asUsize i = i.toNat := by
  unfold asUsize
  rw [Int.emod_eq_of_lt h0 (by omega)]

theorem sumUsize_eq_toNat (sps : List SpotPrice)
    (h : ∀ p ∈ sps, 0 ≤ p.duration_seconds ∧ p.duration_seconds < 2 ^ 63) :
    sumUsize sps = ((sps.map (fun p => p.duration_seconds)).map Int.toNat).sum := by
  unfold sumUsize
  rw [List.map_map]
  refine congrArg List.sum (List.map_congr_left ?_)
  intro p hp
  exact asUsize_of_small _ (h p hp).1 (h p hp).2

/-- Under the data-model invariants (non-empty inputs, non-negative
`i64`-representable durations, enough priced seconds), the two per-second
series of `total_price_for_load` both have exactly the required length, and
the function returns the per-second dot product. -/
theorem total_price_defined (sps : List SpotPrice) (lp : LoadProfile)
    (f : Option (SpotPrice → ℚ))
    (h1 : sps ≠ []) (h2 : lp.sections ≠ [])
    (h3 : ∀ s ∈ lp.sections, 0 ≤ s.duration_seconds)
    (h6 : lp.total_duration_seconds < 2 ^ 63)
    (h4 : ∀ p ∈ sps, 0 ≤ p.duration_seconds ∧ p.duration_seconds < 2 ^ 63)
    (h5 : lp.total_duration_seconds ≤ sumDuration sps) :
    (buildPriceSeries f (asUsize lp.total_duration_seconds) 0 sps).length =
        asUsize lp.total_duration_seconds ∧
    (powerSeries lp).length = asUsize lp.total_duration_seconds ∧
    total_price_for_load sps lp f =
      some (List.zipWith (fun x y => x * y)
        (buildPriceSeries f (asUsize lp.total_duration_seconds) 0 sps) (powerSeries lp)).sum := by
  have htot0 : 0 ≤ lp.total_duration_seconds :=
    List.sum_nonneg (by
      intro x hx
      obtain ⟨s, hs, rfl⟩ := List.mem_map.mp hx
      exact h3 s hs)
  have hreq : asUsize lp.total_duration_seconds = lp.total_duration_seconds.toNat :=
    asUsize_of_small _ htot0 h6
  have hprice : (buildPriceSeries f (asUsize lp.total_duration_seconds) 0 sps).length =
      asUsize lp.total_duration_seconds := by
    rw [buildPriceSeries_length]
    have hge : asUsize lp.total_duration_seconds ≤ sumUsize sps := by
      rw [sumUsize_eq_toNat sps h4, hreq]
      calc lp.total_duration_seconds.toNat ≤ (sumDuration sps).toNat := by omega
      _ ≤ ((sps.map (fun p => p.duration_seconds)).map Int.toNat).sum := sum_toNat_le _
    omega
  have hpow : (powerSeries lp).length = asUsize lp.total_duration_seconds := by
    rw [powerSeries_length, hreq]
    have hsmall : ∀ s ∈ lp.sections, asUsize s.duration_seconds = s.duration_seconds.toNat := by
      intro s hs
      refine asUsize_of_small _ (h3 s hs) ?_
      have hle : s.duration_seconds ≤ lp.total_duration_seconds := by
        refine List.single_le_sum ?_ _ (List.mem_map_of_mem (fun s => s.duration_seconds) hs)
        intro x hx
        obtain ⟨u, hu, rfl⟩ := List.mem_map.mp hx
        exact h3 u hu
      omega
    rw [List.map_congr_left hsmall]
    have : (lp.sections.map (fun s => s.duration_seconds.toNat)).sum =
        ((lp.sections.map (fun s => s.duration_seconds)).map Int.toNat).sum := by
      rw [List.map_map]; rfl
    have hnn : ∀ x ∈ lp.sections.map (fun s => s.duration_seconds), 0 ≤ x := by
      intro x hx
      obtain ⟨u, hu, rfl⟩ := List.mem_map.mp hx
      exact h3 u hu
    rw [this, sum_toNat_of_nonneg _ hnn]
    rfl
  refine ⟨hprice, hpow, ?_⟩
  unfold total_price_for_load
  rw [if_neg (by simp [h1, h2]), if_pos ⟨hprice, hpow⟩]

/-- C6: `total_price_for_load` returns exactly 0 whenever the spot-price
slice is empty or the load profile's section list is empty, for every value
of the other argument and for any supplied price function. -/
theorem c6_total_price_zero_on_empty (sps : List SpotPrice) (lp : LoadProfile)
    (f : Option (SpotPrice → ℚ)) (h : sps = [] ∨ lp.sections = []) :
    total_price_for_load sps lp f = some 0 := by
  simp only [total_price_for_load, if_pos h]

theorem c6_total_price_zero_on_empty_witness :
    (([] : List SpotPrice) = [] ∨ (⟨[⟨2, 5⟩]⟩ : LoadProfile).sections = []) ∧
    total_price_for_load [] ⟨[⟨2, 5⟩]⟩ none = some 0 :=
  ⟨Or.inl rfl, c6_total_price_zero_on_empty [] ⟨[⟨2, 5⟩]⟩ none (Or.inl rfl)⟩

/-- C7: if both inputs are non-empty, every load section has positive
duration, every spot price has `from < till`, the summed spot-price duration
reaches the profile's total duration (all durations `i64`-representable),
then both length assertions of `total_price_for_load` hold — each per-second
series has exactly the required number of elements — and the function
returns a value without panicking. -/
theorem c7_assertions_hold (sps : List SpotPrice) (lp : LoadProfile)
    (f : Option (SpotPrice → ℚ))
    (h1 : sps ≠ []) (h2 : lp.sections ≠ [])
    (h3 : ∀ s ∈ lp.sections, 0 < s.duration_seconds)
    (h4 : ∀ p ∈ sps, p.fromUtc < p.till)
    (h5 : lp.total_duration_seconds ≤ sumDuration sps)
    (h6 : lp.total_duration_seconds < 2 ^ 63)
    (h7 : ∀ p ∈ sps, p.duration_seconds < 2 ^ 63) :
    (buildPriceSeries f (asUsize lp.total_duration_seconds) 0 sps).length =
        asUsize lp.total_duration_seconds ∧
    (powerSeries lp).length = asUsize lp.total_duration_seconds ∧
    (total_price_for_load sps lp f).isSome := by
  obtain ⟨ha, hb, hc⟩ := total_price_defined sps lp f h1 h2
    (fun s hs => le_of_lt (h3 s hs)) h6
    (fun p hp => ⟨by have := h4 p hp; unfold SpotPrice.duration_seconds; omega, h7 p hp⟩) h5
  exact ⟨ha, hb, by rw [hc]; rfl⟩

theorem c7_assertions_hold_witness :
    ([(⟨none, none, 0, 2, 5, 0, 0, 0⟩ : SpotPrice)] ≠ []) ∧
    ((⟨[⟨2, 720000⟩]⟩ : LoadProfile).sections ≠ []) ∧
    (∀ s ∈ (⟨[⟨2, 720000⟩]⟩ : LoadProfile).sections, 0 < s.duration_seconds) ∧
    (∀ p ∈ [(⟨none, none, 0, 2, 5, 0, 0, 0⟩ : SpotPrice)], p.fromUtc < p.till) ∧
    ((⟨[⟨2, 720000⟩]⟩ : LoadProfile).total_duration_seconds ≤
      sumDuration [(⟨none, none, 0, 2, 5, 0, 0, 0⟩ : SpotPrice)]) ∧
    ((⟨[⟨2, 720000⟩]⟩ : LoadProfile).total_duration_seconds < 2 ^ 63) ∧
    (∀ p ∈ [(⟨none, none, 0, 2, 5, 0, 0, 0⟩ : SpotPrice)], p.duration_seconds < 2 ^ 63) ∧
    ((buildPriceSeries none
        (asUsize (⟨[⟨2, 720000⟩]⟩ : LoadProfile).total_duration_seconds) 0
        [(⟨none, none, 0, 2, 5, 0, 0, 0⟩ : SpotPrice)]).length =
      asUsize (⟨[⟨2, 720000⟩]⟩ : LoadProfile).total_duration_seconds ∧
    (powerSeries ⟨[⟨2, 720000⟩]⟩).length =
      asUsize (⟨[⟨2, 720000⟩]⟩ : LoadProfile).total_duration_seconds ∧
    (total_price_for_load [(⟨none, none, 0, 2, 5, 0, 0, 0⟩ : SpotPrice)]
      ⟨[⟨2, 720000⟩]⟩ none).isSome) :=
  ⟨by decide, by decide, by decide, by decide, by decide, by decide, by decide,
    c7_assertions_hold _ _ none (by decide) (by decide) (by decide) (by decide)
      (by decide) (by decide) (by decide)⟩

/-- C5: for a single spot price and a single load section of equal duration,
`total_price_for_load` with the default price function equals
`power_draw_watt * total_price() * duration_seconds / (3600 * 1000)` exactly
over the rationals, where `total_price()` sums the four component prices.
The duration is non-negative (the data-model invariant `from < till`) and
`i64`-representable. -/
theorem c5_single_section_cost (p : SpotPrice) (s : LoadProfileSection)
    (hd : s.duration_seconds = p.duration_seconds)
    (h0 : 0 ≤ p.duration_seconds) (hb : p.duration_seconds < 2 ^ 63) :
    total_price_for_load [p] ⟨[s]⟩ none =
      some (s.power_draw_watt * p.total_price * (s.duration_seconds : ℚ) / (3600 * 1000)) := by
  have htot : (⟨[s]⟩ : LoadProfile).total_duration_seconds = p.duration_seconds := by
    simp [LoadProfile.total_duration_seconds, hd]
  have hu : asUsize (⟨[s]⟩ : LoadProfile).total_duration_seconds = p.duration_seconds.toNat := by
    rw [htot]; exact asUsize_of_small _ h0 hb
  have hup : asUsize p.duration_seconds = p.duration_seconds.toNat := asUsize_of_small _ h0 hb
  have hus : asUsize s.duration_seconds = p.duration_seconds.toNat := by rw [hd]; exact hup
  have hbuild : buildPriceSeries none p.duration_seconds.toNat 0 [p] =
      List.replicate p.duration_seconds.toNat (pricePerSecond none p) := by
    simp [buildPriceSeries, hup]
  have hpow : powerSeries ⟨[s]⟩ =
      List.replicate p.duration_seconds.toNat s.power_draw_watt := by
    simp [powerSeries, hus]
  unfold total_price_for_load
  rw [if_neg (by simp)]
  simp only [hbuild, hpow, hu, List.length_replicate, and_self, if_true, ite_true]
  rw [List.zipWith_replicate', List.sum_replicate, nsmul_eq_mul]
  congr 1
  have hcast : (p.duration_seconds.toNat : ℚ) = (p.duration_seconds : ℚ) := by
    have : ((p.duration_seconds.toNat : Int) : ℚ) = (p.duration_seconds : ℚ) := by
      rw [Int.toNat_of_nonneg h0]
    push_cast at this ⊢
    exact this
  rw [hcast, hd]
  unfold pricePerSecond
  simp only [Option.getD_none]
  ring

theorem c5_single_section_cost_witness :
    ((⟨3, 720000⟩ : LoadProfileSection).duration_seconds =
      (⟨none, none, 10, 13, 5, 1, 1, 1⟩ : SpotPrice).duration_seconds) ∧
    (0 ≤ (⟨none, none, 10, 13, 5, 1, 1, 1⟩ : SpotPrice).duration_seconds) ∧
    ((⟨none, none, 10, 13, 5, 1, 1, 1⟩ : SpotPrice).duration_seconds < 2 ^ 63) ∧
    total_price_for_load [⟨none, none, 10, 13, 5, 1, 1, 1⟩] ⟨[⟨3, 720000⟩]⟩ none =
      some ((⟨3, 720000⟩ : LoadProfileSection).power_draw_watt *
        (⟨none, none, 10, 13, 5, 1, 1, 1⟩ : SpotPrice).total_price *
        ((⟨3, 720000⟩ : LoadProfileSection).duration_seconds : ℚ) / (3600 * 1000)) :=
  ⟨by decide, by decide, by decide,
    c5_single_section_cost ⟨none, none, 10, 13, 5, 1, 1, 1⟩ ⟨3, 720000⟩
      (by decide) (by decide) (by decide)⟩


/-! ### Lemmas about the plannability filter -/

theorem timeSlotTillInstant_isSome (tz : Tz) (day : Int) (s : TimeSlot)
    (htz : ∀ t : Int, (tz.localToUtc t).isSome) :
    (timeSlotTillInstant tz day s).isSome := by
  unfold timeSlotTillInstant
  split
  · exact htz _
  · cases h : tz.localToUtc (day * 86400 +
      (s.till.hour * 3600 + s.till.minute * 60 + s.till.second)) with
    | none => have := htz (day * 86400 +
        (s.till.hour * 3600 + s.till.minute * 60 + s.till.second)); rw [h] at this; cases this
    | some v => simp [h]

theorem slotAny_eq_any (tz : Tz) (day pf pt : Int)
    (htz : ∀ t : Int, (tz.localToUtc t).isSome) (slots : List TimeSlot) :
    slotAny tz day pf pt slots = some (slots.any (slotContains tz day pf pt)) := by
  induction slots with
  | nil => simp [slotAny]
  | cons s rest ih =>
    obtain ⟨sf, hsf⟩ := Option.isSome_iff_exists.mp (htz (day * 86400 +
      (s.fromT.hour * 3600 + s.fromT.minute * 60 + s.fromT.second)))
    have hsf : timeSlotFromInstant tz day s = some sf := hsf
    obtain ⟨st, hst⟩ := Option.isSome_iff_exists.mp (timeSlotTillInstant_isSome tz day s htz)
    simp only [slotAny, hsf, hst, List.any_cons, slotContains]
    by_cases hc : pf ≥ sf ∧ pf < st ∧ pt > sf ∧ pt ≤ st
    · rw [if_pos hc]
      simp [hc.1, hc.2.1, hc.2.2.1, hc.2.2.2]
    · rw [if_neg hc, ih]
      have hfalse : (decide (pf ≥ sf) && decide (pf < st) && decide (pt > sf) &&
          decide (pt ≤ st)) = false := by
        simp only [Bool.and_eq_false_iff, decide_eq_false_iff_not]
        omega
      rw [hfalse, Bool.false_or]

theorem lookupAny_eq (cfg : SpotPricePlannerConfig) (tz : Tz) (p : SpotPrice)
    (htz : ∀ t : Int, (tz.localToUtc t).isSome) :
    (match cfg.plannable_local_time_slots.lookup (weekdayOf (localDayOf tz p.fromUtc)) with
     | some slots => slotAny tz (localDayOf tz p.fromUtc) p.fromUtc p.till slots
     | none => some false) =
    some (match cfg.plannable_local_time_slots.lookup (weekdayOf (localDayOf tz p.fromUtc)) with
     | none => false
     | some slots => slots.any (slotContains tz (localDayOf tz p.fromUtc) p.fromUtc p.till)) := by
  cases hlk : cfg.plannable_local_time_slots.lookup (weekdayOf (localDayOf tz p.fromUtc)) with
  | none => rfl
  | some slots => exact slotAny_eq_any tz _ _ _ htz slots

theorem spotPricePlannable_eq_spec (cfg : SpotPricePlannerConfig) (tz : Tz)
    (after before : Option Int) (p : SpotPrice)
    (htz : ∀ t : Int, (tz.localToUtc t).isSome) :
    spotPricePlannable cfg tz after before p = some (specPlannable cfg tz after before p) := by
  unfold spotPricePlannable specPlannable
  rcases after with _ | a <;> rcases before with _ | b
  · simp only [Bool.true_and, if_neg (show ¬(false = true) by simp)]
    exact lookupAny_eq cfg tz p htz
  · by_cases hb : p.till > b
    · simp [hb, show ¬(p.till ≤ b) by omega]
    · simp only [Bool.true_and, if_neg (show ¬(false = true) by simp),
        if_neg (show ¬(decide (p.till > b) = true) by simp [hb]),
        decide_eq_true (show p.till ≤ b by omega)]
      exact lookupAny_eq cfg tz p htz
  · by_cases ha : p.fromUtc < a
    · simp [ha, show ¬(p.fromUtc ≥ a) by omega]
    · simp only [Bool.true_and, if_neg (show ¬(decide (p.fromUtc < a) = true) by simp [ha]),
        if_neg (show ¬(false = true) by simp),
        decide_eq_true (show p.fromUtc ≥ a by omega)]
      exact lookupAny_eq cfg tz p htz
  · by_cases ha : p.fromUtc < a
    · simp [ha, show ¬(p.fromUtc ≥ a) by omega]
    · by_cases hb : p.till > b
      · simp [ha, hb, show ¬(p.till ≤ b) by omega]
      · simp only [Bool.true_and, if_neg (show ¬(decide (p.fromUtc < a) = true) by simp [ha]),
          if_neg (show ¬(decide (p.till > b) = true) by simp [hb]),
          decide_eq_true (show p.fromUtc ≥ a by omega),
          decide_eq_true (show p.till ≤ b by omega)]
        exact lookupAny_eq cfg tz p htz

theorem filterPlannable_eq_filter (cfg : SpotPricePlannerConfig) (tz : Tz)
    (after before : Option Int)
    (htz : ∀ t : Int, (tz.localToUtc t).isSome) : ∀ l : List SpotPrice,
    filterPlannable cfg tz after before l = some (l.filter (specPlannable cfg tz after before)) := by
  intro l
  induction l with
  | nil => rfl
  | cons p rest ih =>
    unfold filterPlannable
    rw [spotPricePlannable_eq_spec cfg tz after before p htz, ih]
    cases hb : specPlannable cfg tz after before p with
    | true => simp [List.filter_cons, hb]
    | false => simp [List.filter_cons, hb]

theorem filterPlannable_sublist (cfg : SpotPricePlannerConfig) (tz : Tz)
    (after before : Option Int) : ∀ l out : List SpotPrice,
    filterPlannable cfg tz after before l = some out → out.Sublist l := by
  intro l
  induction l with
  | nil => intro out h; simp only [filterPlannable, Option.some_inj] at h; simp [← h]
  | cons p rest ih =>
    intro out h
    unfold filterPlannable at h
    cases hsp : spotPricePlannable cfg tz after before p with
    | none => rw [hsp] at h; cases h
    | some b =>
      rw [hsp] at h
      cases hrest : filterPlannable cfg tz after before rest with
      | none => rw [hrest] at h; cases h
      | some r =>
        rw [hrest] at h
        cases b with
        | true =>
          have h2 : p :: r = out := by simpa using h
          rw [← h2]
          exact (ih r hrest).cons₂ p
        | false =>
          have h2 : r = out := by simpa using h
          rw [← h2]
          exact (ih r hrest).cons p

/-- C2: when the configured time zone resolves and every naive local
date-time resolves to a unique instant (the panic-freedom precondition made
explicit in C9), `get_plannable_spot_prices` returns exactly the
subsequence, in original order, of the input spot prices satisfying the
plannability predicate: the optional `after`/`before` bounds, a configured
entry for the local weekday of `from`, and containment in at least one slot
of that entry placed on the local calendar date of `local_from` (with the
day-wraparound rule for the slot end). -/
theorem c2_filter_characterisation (cfg : SpotPricePlannerConfig) (tz : Tz)
    (spot_prices : List SpotPrice) (after before : Option Int)
    (hz : cfg.local_time_zone = some tz)
    (htz : ∀ t : Int, (tz.localToUtc t).isSome) :
    get_plannable_spot_prices cfg spot_prices after before =
      .ok (spot_prices.filter (specPlannable cfg tz after before)) := by
  unfold get_plannable_spot_prices
  simp only [hz]
  rw [filterPlannable_eq_filter cfg tz after before htz]

/-! ### Concrete zones and inputs used by witnesses and counterexamples -/

/-- A fixed-offset zone, UTC+2 (Europe/Amsterdam in April): every naive
local time resolves uniquely. -/
def tzPlus2 : Tz := ⟨fun t => t + 7200, fun n => some (n - 7200)⟩

/-- The UTC zone itself (offset 0). -/
def tzZero : Tz := ⟨fun t => t, fun n => some n⟩

/-- A zone with a spring-forward gap: naive local times in `[0, 3600)`
(00:00–01:00 of day 0, a Thursday) do not exist. -/
def tzGap : Tz :=
  ⟨fun t => if t < 0 then t else t + 3600,
   fun n => if n < 0 then some n else if n < 3600 then none else some (n - 3600)⟩

/-- Day 19096 (2022-04-14, a Thursday) in seconds: the reference scenario of
the repository's tests. -/
def thuApr14 : Int := 19096 * 86400

/-- Thursday slot 14:00–16:00 local, UTC+2: the reference configuration. -/
def cfgC2 : SpotPricePlannerConfig :=
  ⟨[(3, [⟨⟨50400⟩, ⟨57600⟩⟩])], some tzPlus2, ⟨[⟨7200, 2000⟩]⟩⟩

/-- Four one-hour prices, 11:00–15:00 UTC on the Thursday. -/
def pricesC2 : List SpotPrice :=
  [⟨none, none, thuApr14 + 39600, thuApr14 + 43200, 1, 0, 0, 0⟩,
   ⟨none, none, thuApr14 + 43200, thuApr14 + 46800, 2, 0, 0, 0⟩,
   ⟨none, none, thuApr14 + 46800, thuApr14 + 50400, 3, 0, 0, 0⟩,
   ⟨none, none, thuApr14 + 50400, thuApr14 + 54000, 4, 0, 0, 0⟩]

theorem c2_filter_characterisation_witness :
    (cfgC2.local_time_zone = some tzPlus2) ∧
    (∀ t : Int, (tzPlus2.localToUtc t).isSome) ∧
    get_plannable_spot_prices cfgC2 pricesC2 none none =
      .ok (pricesC2.filter (specPlannable cfgC2 tzPlus2 none none)) :=
  ⟨rfl, fun _ => rfl,
    c2_filter_characterisation cfgC2 tzPlus2 pricesC2 none none rfl (fun _ => rfl)⟩

/-- The slot 00:00–00:30: its end time-of-day is not midnight, so claim C1
asserts no day-wraparound for it. -/
def slotC1 : TimeSlot := ⟨⟨0⟩, ⟨1800⟩⟩

def cfgC1 : SpotPricePlannerConfig :=
  ⟨[(3, [slotC1])], some tzZero, ⟨[⟨1800, 2000⟩]⟩⟩

/-- An interval 23:00–23:30 local on day 0 (a Thursday). -/
def pC1 : SpotPrice := ⟨none, none, 82800, 84600, 1, 0, 0, 0⟩

/-- C1 counterexample: for the slot end 00:30:00 — not midnight — the code
computes `slot_till` = local day 0 at 00:30 **plus one day** (88200 =
1800 + 86400), not the claim's same-day 00:30 (1800); observably, the
23:00–23:30 interval is accepted by the filter, which the claim's
no-wraparound placement would reject (23:00 is not before 00:30 of the same
day). -/
theorem c1_counterexample_half_past_midnight :
    timeSlotTillInstant tzZero 0 slotC1 = some (1800 + 86400) ∧
    timeSlotTillInstantPerClaim tzZero 0 slotC1 = some 1800 ∧
    timeSlotTillInstant tzZero 0 slotC1 ≠ timeSlotTillInstantPerClaim tzZero 0 slotC1 ∧
    get_plannable_spot_prices cfgC1 [pC1] none none = .ok [pC1] := by
  refine ⟨by decide, by decide, by decide, by decide⟩

/-- C1 as amended: `slot_till` is the slot's end time placed on the local
calendar date of `local_from`, plus one day exactly when the end
time-of-day's **hour component** is 0 — i.e. for every end time-of-day
before 01:00:00 (including 00:30:00), not only for exactly midnight. -/
theorem c1_amended_wraparound_rule (tz : Tz) (day : Int) (time_slot : TimeSlot) :
    timeSlotTillInstant tz day time_slot =
      if time_slot.till.secs < 3600 then
        (tz.localToUtc (day * 86400 + (time_slot.till.secs : Int))).map (fun t => t + 86400)
      else
        tz.localToUtc (day * 86400 + (time_slot.till.secs : Int)) := by
  have hnat : time_slot.till.hour * 3600 + time_slot.till.minute * 60 + time_slot.till.second
      = time_slot.till.secs := by
    unfold NaiveTime.hour NaiveTime.minute NaiveTime.second
    omega
  have hrec : ((time_slot.till.hour : Int) * 3600 + (time_slot.till.minute : Int) * 60 +
      (time_slot.till.second : Int)) = (time_slot.till.secs : Int) := by
    exact_mod_cast hnat
  unfold timeSlotTillInstant
  by_cases h : time_slot.till.secs < 3600
  · rw [if_neg (show ¬time_slot.till.hour > 0 by unfold NaiveTime.hour; omega), if_pos h, hrec]
  · rw [if_pos (show time_slot.till.hour > 0 by unfold NaiveTime.hour; omega), if_neg h, hrec]

/-- Thursday slot 00:30–06:00 local in the gap zone. -/
def cfgC9 : SpotPricePlannerConfig :=
  ⟨[(3, [⟨⟨1800⟩, ⟨21600⟩⟩])], some tzGap, ⟨[⟨2, 1⟩]⟩⟩

/-- An interval on day 0 of the gap zone (02:00–03:00 UTC, i.e. local
03:00–04:00 after the spring-forward). -/
def pC9 : SpotPrice := ⟨none, none, 7200, 10800, 0, 0, 0, 0⟩

/-- C9: with a resolvable time zone whose spring-forward gap swallows a
configured slot boundary (local 00:30 of day 0 does not exist),
`get_plannable_spot_prices` panics — the `.unwrap()` on the combined local
date-time aborts — instead of returning an `Err`. -/
theorem c9_panic_on_dst_gap :
    cfgC9.local_time_zone = some tzGap ∧
    get_plannable_spot_prices cfgC9 [pC9] none none = .panicked :=
  ⟨rfl, by decide⟩

/-! ### Lemmas about the block selector -/

theorem sumDuration_nil : sumDuration [] = 0 := rfl

theorem sumDuration_cons (p : SpotPrice) (l : List SpotPrice) :
    sumDuration (p :: l) = p.duration_seconds + sumDuration l := by
  simp [sumDuration]

theorem extendBlock_sum (required : Int) : ∀ (l : List SpotPrice) (secs : Int),
    (extendBlock required secs l).2 = secs + sumDuration (extendBlock required secs l).1 := by
  intro l
  induction l with
  | nil => intro secs; simp [extendBlock, sumDuration_nil]
  | cons q rest ih =>
    intro secs
    unfold extendBlock
    by_cases h : secs < required
    · rw [if_pos h]
      simp only [sumDuration_cons, ih (secs + q.duration_seconds)]
      ring
    · rw [if_neg h]
      simp [sumDuration_nil]

theorem extendBlock_prefix (required : Int) : ∀ (l : List SpotPrice) (secs : Int),
    (extendBlock required secs l).1.IsPrefix l := by
  intro l
  induction l with
  | nil => intro secs; simp [extendBlock]
  | cons q rest ih =>
    intro secs
    unfold extendBlock
    by_cases h : secs < required
    · rw [if_pos h]
      obtain ⟨t, ht⟩ := ih (secs + q.duration_seconds)
      exact ⟨t, by rw [List.cons_append, ht]⟩
    · rw [if_neg h]
      exact List.nil_prefix

theorem extendBlock_all_of_lt (required : Int) : ∀ (l : List SpotPrice) (secs : Int),
    (extendBlock required secs l).2 < required → (extendBlock required secs l).1 = l := by
  intro l
  induction l with
  | nil => intro secs _; rfl
  | cons q rest ih =>
    intro secs hlt
    unfold extendBlock at hlt ⊢
    by_cases h : secs < required
    · rw [if_pos h] at hlt ⊢
      simp only at hlt ⊢
      rw [ih (secs + q.duration_seconds) hlt]
    · rw [if_neg h] at hlt
      exact absurd hlt h

theorem sumDuration_sublist_le (l1 l2 : List SpotPrice) (h : l1.Sublist l2)
    (hn : ∀ p ∈ l2, 0 ≤ p.duration_seconds) : sumDuration l1 ≤ sumDuration l2 := by
  unfold sumDuration
  refine List.Sublist.sum_le_sum (h.map (fun p => p.duration_seconds)) ?_
  intro x hx
  obtain ⟨p, hp, rfl⟩ := List.mem_map.mp hx
  exact hn p hp

theorem candidateAt_some (required : Int) (p : SpotPrice) (rest c : List SpotPrice)
    (h : candidateAt required (p :: rest) = some c) :
    c = p :: (extendBlock required p.duration_seconds rest).1 ∧
    required ≤ sumDuration c ∧ c.IsPrefix (p :: rest) := by
  simp only [candidateAt] at h
  by_cases he : (extendBlock required p.duration_seconds rest).2 < required
  · rw [if_pos he] at h; cases h
  · rw [if_neg he] at h
    have hc : c = p :: (extendBlock required p.duration_seconds rest).1 :=
      (Option.some_inj.mp h).symm
    refine ⟨hc, ?_, ?_⟩
    · rw [hc, sumDuration_cons, ← extendBlock_sum]
      omega
    · rw [hc]
      obtain ⟨t, ht⟩ := extendBlock_prefix required rest p.duration_seconds
      exact ⟨t, by rw [List.cons_append, ht]⟩

theorem candidateAt_none_of_small (required : Int) (l : List SpotPrice)
    (hn : ∀ p ∈ l, 0 ≤ p.duration_seconds) (h : sumDuration l < required) :
    candidateAt required l = none := by
  cases l with
  | nil => rfl
  | cons p rest =>
    simp only [candidateAt]
    rw [if_pos ?_]
    by_contra hge
    push_neg at hge
    have hsum := extendBlock_sum required rest p.duration_seconds
    have hpre := extendBlock_prefix required rest p.duration_seconds
    have hle : sumDuration (extendBlock required p.duration_seconds rest).1 ≤ sumDuration rest :=
      sumDuration_sublist_le _ _ hpre.sublist (fun q hq => hn q (List.mem_cons_of_mem p hq))
    rw [sumDuration_cons] at h
    omega

theorem mem_suffixes : ∀ (l s : List SpotPrice), s ∈ suffixes l ↔ s.IsSuffix l := by
  intro l
  induction l with
  | nil =>
    intro s
    simp only [suffixes, List.mem_singleton]
    exact ⟨fun h => h ▸ List.nil_suffix, fun h => List.suffix_nil.mp h⟩
  | cons p rest ih =>
    intro s
    simp only [suffixes, List.mem_cons, ih]
    exact (List.suffix_cons_iff).symm

theorem completeCandidates_cons (required : Int) (p : SpotPrice) (rest : List SpotPrice) :
    completeCandidates required (p :: rest) =
      match candidateAt required (p :: rest) with
      | some c => c :: completeCandidates required rest
      | none => completeCandidates required rest := by
  unfold completeCandidates
  rw [show suffixes (p :: rest) = (p :: rest) :: suffixes rest from rfl, List.filterMap_cons]
  cases candidateAt required (p :: rest) <;> rfl

theorem completeCandidates_nil_of_small (required : Int) (l : List SpotPrice)
    (hn : ∀ p ∈ l, 0 ≤ p.duration_seconds) (h : sumDuration l < required) :
    completeCandidates required l = [] := by
  unfold completeCandidates
  rw [List.filterMap_eq_nil_iff]
  intro s hs
  have hsuf : s.IsSuffix l := (mem_suffixes l s).mp hs
  refine candidateAt_none_of_small required s ?_ ?_
  · intro q hq
    exact hn q (hsuf.sublist.subset hq)
  · have := sumDuration_sublist_le s l hsuf.sublist hn
    omega

theorem completeCandidates_mem (required : Int) (l c : List SpotPrice)
    (h : c ∈ completeCandidates required l) :
    c ≠ [] ∧ required ≤ sumDuration c ∧ c.IsInfix l := by
  unfold completeCandidates at h
  obtain ⟨s, hs, hcand⟩ := List.mem_filterMap.mp h
  have hsuf : s.IsSuffix l := (mem_suffixes l s).mp hs
  cases s with
  | nil => cases hcand
  | cons p rest =>
    obtain ⟨hc, hsum, hpre⟩ := candidateAt_some required p rest c hcand
    refine ⟨by rw [hc]; exact List.cons_ne_nil _ _, hsum, ?_⟩
    obtain ⟨t, ht⟩ := hpre
    obtain ⟨u, hu⟩ := hsuf
    exact ⟨u, t, by rw [List.append_assoc, ht, hu]⟩

theorem total_price_isSome_of (c : List SpotPrice) (lp : LoadProfile)
    (hc : c ≠ []) (hsecne : lp.sections ≠ [])
    (hsec : ∀ s ∈ lp.sections, 0 ≤ s.duration_seconds)
    (hbound : lp.total_duration_seconds < 2 ^ 63)
    (hd : ∀ p ∈ c, 0 ≤ p.duration_seconds ∧ p.duration_seconds < 2 ^ 63)
    (hsum : lp.total_duration_seconds ≤ sumDuration c) :
    (total_price_for_load c lp none).isSome := by
  obtain ⟨_, _, h⟩ := total_price_defined c lp none hc hsecne hsec hbound hd hsum
  rw [h]
  rfl

/-- One comparison step of the selection loop, as a pure function on the
current best block and the next complete candidate: keep the first candidate
unconditionally, afterwards replace only on strict improvement for the
strategy. -/
def stepBest (strategy : PlanningStrategy) (lp : LoadProfile)
    (best c : List SpotPrice) : List SpotPrice :=
  if best.isEmpty then c
  else
    match strategy with
    | .LowestPrice => if evalPrice lp c < evalPrice lp best then c else best
    | .HighestPrice => if evalPrice lp c > evalPrice lp best then c else best

theorem stepBest_eq_of_prices (strategy : PlanningStrategy) (lp : LoadProfile)
    (best c : List SpotPrice) (pv cv : ℚ)
    (hbe : best.isEmpty = false)
    (hpv : total_price_for_load best lp none = some pv)
    (hcv : total_price_for_load c lp none = some cv) :
    stepBest strategy lp best c =
      (match strategy with
       | .LowestPrice => if cv < pv then c else best
       | .HighestPrice => if cv > pv then c else best) := by
  unfold stepBest evalPrice
  rw [hbe, hpv, hcv]
  cases strategy <;> simp

theorem stepBest_mem (strategy : PlanningStrategy) (lp : LoadProfile)
    (best c : List SpotPrice) :
    stepBest strategy lp best c = best ∨ stepBest strategy lp best c = c := by
  unfold stepBest
  by_cases h : best.isEmpty
  · rw [if_pos h]; exact Or.inr rfl
  · rw [if_neg h]
    cases strategy
    · by_cases h2 : evalPrice lp c < evalPrice lp best
      · rw [if_pos h2]; exact Or.inr rfl
      · rw [if_neg h2]; exact Or.inl rfl
    · by_cases h2 : evalPrice lp c > evalPrice lp best
      · rw [if_pos h2]; exact Or.inr rfl
      · rw [if_neg h2]; exact Or.inl rfl

theorem bestLoop_eq_foldl (required : Int) (strategy : PlanningStrategy) (lp : LoadProfile) :
    ∀ (l best : List SpotPrice),
    (∀ p ∈ l, 0 ≤ p.duration_seconds) →
    (best = [] ∨ (total_price_for_load best lp none).isSome) →
    (∀ c ∈ completeCandidates required l, (total_price_for_load c lp none).isSome) →
    bestLoop required strategy lp best l =
      some ((completeCandidates required l).foldl (stepBest strategy lp) best) := by
  intro l
  induction l with
  | nil =>
    intro best _ _ _
    rfl
  | cons p rest ih =>
    intro best hn hbest hgood
    by_cases hbrk : (extendBlock required p.duration_seconds rest).2 < required
    · have hsumall : sumDuration (p :: rest) < required := by
        have hall := extendBlock_all_of_lt required rest p.duration_seconds hbrk
        have hsum := extendBlock_sum required rest p.duration_seconds
        rw [hall] at hsum
        rw [sumDuration_cons]
        omega
      rw [completeCandidates_nil_of_small required (p :: rest) hn hsumall]
      simp only [List.foldl_nil, bestLoop]
      rw [if_pos hbrk]
    · have hcand : candidateAt required (p :: rest) =
          some (p :: (extendBlock required p.duration_seconds rest).1) := by
        simp only [candidateAt]
        rw [if_neg hbrk]
      have hcons := completeCandidates_cons required p rest
      rw [hcand] at hcons
      have hgoodrest : ∀ c ∈ completeCandidates required rest,
          (total_price_for_load c lp none).isSome := by
        intro c hcmem
        exact hgood c (by rw [hcons]; exact List.mem_cons_of_mem _ hcmem)
      have hgoodsel :
          (total_price_for_load (p :: (extendBlock required p.duration_seconds rest).1)
            lp none).isSome :=
        hgood _ (by rw [hcons]; exact List.mem_cons_self _ _)
      have hnrest : ∀ q ∈ rest, 0 ≤ q.duration_seconds :=
        fun q hq => hn q (List.mem_cons_of_mem p hq)
      rw [hcons, List.foldl_cons]
      simp only [bestLoop]
      rw [if_neg hbrk]
      by_cases hbe : best.isEmpty
      · rw [if_pos hbe]
        have hstep : stepBest strategy lp best
            (p :: (extendBlock required p.duration_seconds rest).1) =
            p :: (extendBlock required p.duration_seconds rest).1 := by
          unfold stepBest
          rw [if_pos hbe]
        rw [hstep]
        exact ih _ hnrest (Or.inr hgoodsel) hgoodrest
      · rw [if_neg hbe]
        have hbne : best ≠ [] := by
          intro h
          rw [h] at hbe
          exact hbe rfl
        obtain ⟨pv, hpv⟩ := Option.isSome_iff_exists.mp (hbest.resolve_left hbne)
        obtain ⟨cv, hcv⟩ := Option.isSome_iff_exists.mp hgoodsel
        rw [stepBest_eq_of_prices strategy lp best _ pv cv (by simpa using hbe) hpv hcv]
        simp only [hpv, hcv]
        have hnext : ∀ nb : List SpotPrice,
            (nb = best ∨ nb = p :: (extendBlock required p.duration_seconds rest).1) →
            bestLoop required strategy lp nb rest =
              some ((completeCandidates required rest).foldl (stepBest strategy lp) nb) := by
          intro nb hnb
          refine ih nb hnrest ?_ hgoodrest
          cases hnb with
          | inl h => rw [h]; exact Or.inr (by rw [hpv]; rfl)
          | inr h => rw [h]; exact Or.inr hgoodsel
        refine hnext _ ?_
        cases strategy with
        | LowestPrice =>
          by_cases hlt : cv < pv
          · refine Or.inr ?_
            show (if cv < pv then p :: (extendBlock required p.duration_seconds rest).1 else best) =
              p :: (extendBlock required p.duration_seconds rest).1
            rw [if_pos hlt]
          · refine Or.inl ?_
            show (if cv < pv then p :: (extendBlock required p.duration_seconds rest).1 else best) =
              best
            rw [if_neg hlt]
        | HighestPrice =>
          by_cases hlt : cv > pv
          · refine Or.inr ?_
            show (if cv > pv then p :: (extendBlock required p.duration_seconds rest).1 else best) =
              p :: (extendBlock required p.duration_seconds rest).1
            rw [if_pos hlt]
          · refine Or.inl ?_
            show (if cv > pv then p :: (extendBlock required p.duration_seconds rest).1 else best) =
              best
            rw [if_neg hlt]

theorem foldl_vstep (v : List SpotPrice → ℚ) :
    ∀ (cands : List (List SpotPrice)) (b r : List SpotPrice),
    cands.foldl (fun x c => if v c < v x then c else x) b = r →
    (r = b ∨ r ∈ cands) ∧ (∀ c ∈ b :: cands, v r ≤ v c) ∧
    (b :: cands).find? (fun x => v x == v r) = some r := by
  intro cands
  induction cands with
  | nil =>
    intro b r hr
    simp only [List.foldl_nil] at hr
    subst hr
    refine ⟨Or.inl rfl, ?_, ?_⟩
    · intro c hc
      rcases List.mem_cons.mp hc with h | h
      · rw [h]
      · cases h
    · exact List.find?_cons_of_pos _ (beq_self_eq_true _)
  | cons c cs ih =>
    intro b r hr
    rw [List.foldl_cons] at hr
    obtain ⟨hmem, hle, hfind⟩ := ih (if v c < v b then c else b) r hr
    have hb2le : v (if v c < v b then c else b) ≤ v b ∧ v (if v c < v b then c else b) ≤ v c := by
      by_cases h : v c < v b
      · rw [if_pos h]; exact ⟨le_of_lt h, le_refl _⟩
      · rw [if_neg h]; exact ⟨le_refl _, le_of_not_lt h⟩
    have hrle : v r ≤ v (if v c < v b then c else b) :=
      hle _ (List.mem_cons_self _ _)
    refine ⟨?_, ?_, ?_⟩
    · cases hmem with
      | inl h =>
        by_cases hc : v c < v b
        · rw [if_pos hc] at h
          exact Or.inr (h ▸ List.mem_cons_self _ _)
        · rw [if_neg hc] at h
          exact Or.inl h
      | inr h => exact Or.inr (List.mem_cons_of_mem _ h)
    · intro x hx
      rcases List.mem_cons.mp hx with h | hx2
      · rw [h]; exact le_trans hrle hb2le.1
      · rcases List.mem_cons.mp hx2 with h | hx3
        · rw [h]; exact le_trans hrle hb2le.2
        · exact hle x (List.mem_cons_of_mem _ hx3)
    · by_cases hvc : v c < v b
      · rw [if_pos hvc] at hfind hrle
        have hpredb : ¬((fun x => v x == v r) b = true) := by
          simp only [beq_iff_eq]
          intro h
          rw [← h] at hrle
          exact absurd (lt_of_lt_of_le hvc hrle) (lt_irrefl _)
        rw [@List.find?_cons_of_neg _ (fun x => v x == v r) b (c :: cs) hpredb]
        exact hfind
      · rw [if_neg hvc] at hfind hrle
        by_cases hvb : v b = v r
        · have hpredb : (fun x => v x == v r) b = true := beq_iff_eq.mpr hvb
          have h1 := @List.find?_cons_of_pos _ (fun x => v x == v r) b cs hpredb
          rw [hfind] at h1
          rw [@List.find?_cons_of_pos _ (fun x => v x == v r) b (c :: cs) hpredb]
          exact h1.symm
        · have hpredb : ¬((fun x => v x == v r) b = true) := by
            simp only [beq_iff_eq]
            exact hvb
          rw [@List.find?_cons_of_neg _ (fun x => v x == v r) b cs hpredb] at hfind
          have hltb : v r < v b := lt_of_le_of_ne hrle (by intro h; exact hvb h.symm)
          have hpredc : ¬((fun x => v x == v r) c = true) := by
            simp only [beq_iff_eq]
            intro h
            have hbc : v b ≤ v c := le_of_not_lt hvc
            rw [h] at hbc
            exact absurd (lt_of_le_of_lt hbc hltb) (lt_irrefl _)
          rw [@List.find?_cons_of_neg _ (fun x => v x == v r) b (c :: cs) hpredb,
            @List.find?_cons_of_neg _ (fun x => v x == v r) c cs hpredc]
          exact hfind

/-- The valuation minimised by the selection loop: the evaluated total price
under LowestPrice, its negation under HighestPrice. -/
def vOf (strategy : PlanningStrategy) (lp : LoadProfile) : List SpotPrice → ℚ :=
  match strategy with
  | .LowestPrice => evalPrice lp
  | .HighestPrice => fun c => -evalPrice lp c

theorem stepBest_eq_vstep (strategy : PlanningStrategy) (lp : LoadProfile)
    (best c : List SpotPrice) (hb : best ≠ []) :
    stepBest strategy lp best c =
      if vOf strategy lp c < vOf strategy lp best then c else best := by
  unfold stepBest vOf
  rw [if_neg (by simpa using hb)]
  cases strategy
  · rfl
  · show (if evalPrice lp c > evalPrice lp best then c else best) =
      if -evalPrice lp c < -evalPrice lp best then c else best
    by_cases h : evalPrice lp c > evalPrice lp best
    · rw [if_pos h, if_pos (neg_lt_neg h)]
    · rw [if_neg h, if_neg (fun hcon => h (neg_lt_neg_iff.mp hcon))]

theorem foldl_stepBest_eq_vstep (strategy : PlanningStrategy) (lp : LoadProfile) :
    ∀ (cs : List (List SpotPrice)) (b : List SpotPrice), b ≠ [] → (∀ c ∈ cs, c ≠ []) →
    cs.foldl (stepBest strategy lp) b =
      cs.foldl (fun x c => if vOf strategy lp c < vOf strategy lp x then c else x) b := by
  intro cs
  induction cs with
  | nil => intro b _ _; rfl
  | cons c t ih =>
    intro b hb hcs
    rw [List.foldl_cons, List.foldl_cons, stepBest_eq_vstep strategy lp b c hb]
    refine ih _ ?_ (fun x hx => hcs x (List.mem_cons_of_mem _ hx))
    by_cases h : vOf strategy lp c < vOf strategy lp b
    · rw [if_pos h]; exact hcs c (List.mem_cons_self _ _)
    · rw [if_neg h]; exact hb

theorem find?_ext (p q : List SpotPrice → Bool) (h : ∀ x, p x = q x) :
    ∀ l : List (List SpotPrice), l.find? p = l.find? q := by
  intro l
  induction l with
  | nil => rfl
  | cons a t ih =>
    by_cases ha : p a = true
    · rw [@List.find?_cons_of_pos _ p a t ha,
        @List.find?_cons_of_pos _ q a t (by rw [← h a]; exact ha)]
    · rw [@List.find?_cons_of_neg _ p a t ha,
        @List.find?_cons_of_neg _ q a t (by rw [← h a]; exact ha), ih]

theorem get_plannable_ok_sublist (cfg : SpotPricePlannerConfig) (prices : List SpotPrice)
    (after before : Option Int) (P : List SpotPrice)
    (h : get_plannable_spot_prices cfg prices after before = .ok P) : P.Sublist prices := by
  unfold get_plannable_spot_prices at h
  cases hz : cfg.local_time_zone with
  | none => simp only [hz] at h; cases h
  | some tz =>
    simp only [hz] at h
    cases hf : filterPlannable cfg tz after before prices with
    | none => simp only [hf] at h; cases h
    | some l =>
      simp only [hf, Outcome.ok.injEq] at h
      rw [← h]
      exact filterPlannable_sublist cfg tz after before prices l hf

/-- C3: under the data-model invariants (positive `i64`-representable
durations for the request's intervals and for the load sections), when the
plannable set is non-empty and at least one starting index yields a complete
candidate block, `get_best_spot_prices` returns a complete candidate block
that is optimal for the strategy over the complete candidate blocks of
**all** starting indices (so the early stop of the outer iteration excludes
no complete candidate), with ties resolved in favour of the lowest starting
index: the returned block is the first element of the start-index-ordered
candidate list whose evaluated price equals the optimum. -/
theorem c3_best_block_optimal (cfg : SpotPricePlannerConfig) (request : PlanningRequest)
    (P : List SpotPrice)
    (hplan : get_plannable_spot_prices cfg request.spot_prices request.after request.before =
      .ok P)
    (hne : P ≠ [])
    (hdur : ∀ p ∈ request.spot_prices,
      0 < p.duration_seconds ∧ p.duration_seconds < 2 ^ 63)
    (hsec : ∀ s ∈ request.load_profile.sections, 0 < s.duration_seconds)
    (hsecne : request.load_profile.sections ≠ [])
    (hsecbound : request.load_profile.total_duration_seconds < 2 ^ 63)
    (hcand : completeCandidates request.load_profile.total_duration_seconds P ≠ []) :
    ∃ best,
      get_best_spot_prices cfg request = .ok ⟨best, request.load_profile⟩ ∧
      best ∈ completeCandidates request.load_profile.total_duration_seconds P ∧
      (∀ c ∈ completeCandidates request.load_profile.total_duration_seconds P,
        match request.planning_strategy with
        | .LowestPrice =>
          evalPrice request.load_profile best ≤ evalPrice request.load_profile c
        | .HighestPrice =>
          evalPrice request.load_profile c ≤ evalPrice request.load_profile best) ∧
      (completeCandidates request.load_profile.total_duration_seconds P).find?
        (fun c => evalPrice request.load_profile c == evalPrice request.load_profile best) =
        some best := by
  have hP : P.Sublist request.spot_prices :=
    get_plannable_ok_sublist cfg request.spot_prices request.after request.before P hplan
  have hdurP : ∀ p ∈ P, 0 ≤ p.duration_seconds ∧ p.duration_seconds < 2 ^ 63 := by
    intro p hp
    exact ⟨le_of_lt (hdur p (hP.subset hp)).1, (hdur p (hP.subset hp)).2⟩
  have hgood : ∀ c ∈ completeCandidates request.load_profile.total_duration_seconds P,
      (total_price_for_load c request.load_profile none).isSome := by
    intro c hc
    obtain ⟨hc0, hcsum, hcinf⟩ :=
      completeCandidates_mem request.load_profile.total_duration_seconds P c hc
    exact total_price_isSome_of c request.load_profile hc0 hsecne
      (fun s hs => le_of_lt (hsec s hs)) hsecbound
      (fun p hp => hdurP p (hcinf.sublist.subset hp)) hcsum
  have hloop := bestLoop_eq_foldl request.load_profile.total_duration_seconds
    request.planning_strategy request.load_profile P []
    (fun p hp => le_of_lt (hdur p (hP.subset hp)).1) (Or.inl rfl) hgood
  have hPe : P.isEmpty = false := by
    cases P with
    | nil => exact absurd rfl hne
    | cons a t => rfl
  have hgb : get_best_spot_prices cfg request =
      .ok ⟨(completeCandidates request.load_profile.total_duration_seconds P).foldl
        (stepBest request.planning_strategy request.load_profile) [],
        request.load_profile⟩ := by
    unfold get_best_spot_prices
    simp only [hplan, hPe]
    rw [if_neg (by simp)]
    simp only [hloop]
  obtain ⟨c0, cs, hcands⟩ :=
    List.exists_cons_of_ne_nil hcand
  have hnonempty : ∀ c ∈ completeCandidates request.load_profile.total_duration_seconds P,
      c ≠ [] := by
    intro c hc
    exact (completeCandidates_mem request.load_profile.total_duration_seconds P c hc).1
  have hc0ne : c0 ≠ [] :=
    hnonempty c0 (by rw [hcands]; exact List.mem_cons_self _ _)
  have hcsne : ∀ c ∈ cs, c ≠ [] := by
    intro c hc
    exact hnonempty c (by rw [hcands]; exact List.mem_cons_of_mem _ hc)
  have hstep0 : stepBest request.planning_strategy request.load_profile [] c0 = c0 := by
    unfold stepBest
    rw [if_pos (show ([] : List SpotPrice).isEmpty = true from rfl)]
  obtain ⟨R, hRdef⟩ : ∃ R, (completeCandidates request.load_profile.total_duration_seconds P).foldl
      (stepBest request.planning_strategy request.load_profile) [] = R := ⟨_, rfl⟩
  rw [hRdef] at hgb
  have hchain : cs.foldl (fun x c =>
      if vOf request.planning_strategy request.load_profile c <
          vOf request.planning_strategy request.load_profile x then c else x) c0 = R := by
    rw [← hRdef, hcands, List.foldl_cons, hstep0]
    exact (foldl_stepBest_eq_vstep request.planning_strategy request.load_profile cs c0
      hc0ne hcsne).symm
  obtain ⟨hmem, hle, hfind⟩ :=
    foldl_vstep (vOf request.planning_strategy request.load_profile) cs c0 R hchain
  refine ⟨R, hgb, ?_, ?_, ?_⟩
  · rw [hcands]
    cases hmem with
    | inl h => rw [h]; exact List.mem_cons_self _ _
    | inr h => exact List.mem_cons_of_mem _ h
  · intro c hc
    have hcmem : c ∈ c0 :: cs := hcands ▸ hc
    have hv := hle c hcmem
    cases hstrat : request.planning_strategy with
    | LowestPrice =>
      rw [hstrat] at hv
      exact hv
    | HighestPrice =>
      rw [hstrat] at hv
      have hv2 : -evalPrice request.load_profile R ≤ -evalPrice request.load_profile c := hv
      exact neg_le_neg_iff.mp hv2
  · have hpred : ∀ x, (vOf request.planning_strategy request.load_profile x ==
        vOf request.planning_strategy request.load_profile R) =
        (evalPrice request.load_profile x == evalPrice request.load_profile R) := by
      intro x
      cases request.planning_strategy
      · rfl
      · show ((-evalPrice request.load_profile x) == -evalPrice request.load_profile R) =
          (evalPrice request.load_profile x == evalPrice request.load_profile R)
        by_cases h : evalPrice request.load_profile x = evalPrice request.load_profile R
        · rw [h, beq_self_eq_true, beq_self_eq_true]
        · have h2 : ¬(-evalPrice request.load_profile x = -evalPrice request.load_profile R) :=
            fun hc => h (neg_inj.mp hc)
          rw [Bool.eq_iff_iff, beq_iff_eq, beq_iff_eq]
          exact ⟨fun hc => absurd hc h2, fun hc => absurd hc h⟩
    rw [hcands]
    rw [← find?_ext _ _ hpred (c0 :: cs)]
    exact hfind

/-- The witness load profile: one 4-second section. -/
def lpC3 : LoadProfile := ⟨[⟨4, 1800000⟩]⟩

/-- Day 19098 (2022-04-16, a Saturday) in seconds. -/
def satApr16 : Int := 19098 * 86400

/-- Saturday slot 00:00–00:00 (whole day, via the wraparound rule). -/
def cfgC3 : SpotPricePlannerConfig := ⟨[(5, [⟨⟨0⟩, ⟨0⟩⟩])], some tzPlus2, lpC3⟩

/-- Four 2-second prices on the Saturday; the cheapest adjacent pair is the
second and third. -/
def pricesC3 : List SpotPrice :=
  [⟨none, none, satApr16, satApr16 + 2, 5, 0, 0, 0⟩,
   ⟨none, none, satApr16 + 2, satApr16 + 4, 2, 0, 0, 0⟩,
   ⟨none, none, satApr16 + 4, satApr16 + 6, 1, 0, 0, 0⟩,
   ⟨none, none, satApr16 + 6, satApr16 + 8, 4, 0, 0, 0⟩]

def reqC3 : PlanningRequest := ⟨pricesC3, lpC3, .LowestPrice, none, none⟩

theorem c3_best_block_optimal_witness :
    (get_plannable_spot_prices cfgC3 reqC3.spot_prices reqC3.after reqC3.before =
      .ok pricesC3) ∧
    (pricesC3 ≠ []) ∧
    (∀ p ∈ reqC3.spot_prices, 0 < p.duration_seconds ∧ p.duration_seconds < 2 ^ 63) ∧
    (∀ s ∈ reqC3.load_profile.sections, 0 < s.duration_seconds) ∧
    (reqC3.load_profile.sections ≠ []) ∧
    (reqC3.load_profile.total_duration_seconds < 2 ^ 63) ∧
    (completeCandidates reqC3.load_profile.total_duration_seconds pricesC3 ≠ []) ∧
    (∃ best,
      get_best_spot_prices cfgC3 reqC3 = .ok ⟨best, reqC3.load_profile⟩ ∧
      best ∈ completeCandidates reqC3.load_profile.total_duration_seconds pricesC3 ∧
      (∀ c ∈ completeCandidates reqC3.load_profile.total_duration_seconds pricesC3,
        match reqC3.planning_strategy with
        | .LowestPrice => evalPrice reqC3.load_profile best ≤ evalPrice reqC3.load_profile c
        | .HighestPrice => evalPrice reqC3.load_profile c ≤ evalPrice reqC3.load_profile best) ∧
      (completeCandidates reqC3.load_profile.total_duration_seconds pricesC3).find?
        (fun c => evalPrice reqC3.load_profile c == evalPrice reqC3.load_profile best) =
        some best) :=
  ⟨by decide, by decide, by decide, by decide, by decide, by decide, by decide,
    c3_best_block_optimal cfgC3 reqC3 pricesC3 (by decide) (by decide) (by decide) (by decide)
      (by decide) (by decide) (by decide)⟩

theorem get_plannable_err_iff (cfg : SpotPricePlannerConfig) (prices : List SpotPrice)
    (after before : Option Int) :
    get_plannable_spot_prices cfg prices after before = .err ↔ cfg.local_time_zone = none := by
  unfold get_plannable_spot_prices
  cases hz : cfg.local_time_zone with
  | none => simp
  | some tz => cases hf : filterPlannable cfg tz after before prices <;> simp [hf]

/-- C4: `get_best_spot_prices` returns `Err` exactly when the configured
time zone fails to resolve; an empty plannable set yields `Ok` with an empty
list, and a non-empty plannable set with no complete candidate block at any
starting index also yields `Ok` with an empty list — neither is reported
through the error channel. -/
theorem c4_error_channel (cfg : SpotPricePlannerConfig) (request : PlanningRequest) :
    (get_best_spot_prices cfg request = .err ↔ cfg.local_time_zone = none) ∧
    (get_plannable_spot_prices cfg request.spot_prices request.after request.before = .ok [] →
      get_best_spot_prices cfg request = .ok ⟨[], request.load_profile⟩) ∧
    (∀ P, get_plannable_spot_prices cfg request.spot_prices request.after request.before =
        .ok P →
      completeCandidates request.load_profile.total_duration_seconds P = [] →
      get_best_spot_prices cfg request = .ok ⟨[], request.load_profile⟩) := by
  refine ⟨⟨?_, ?_⟩, ?_, ?_⟩
  · intro h
    unfold get_best_spot_prices at h
    cases hgp : get_plannable_spot_prices cfg request.spot_prices request.after
        request.before with
    | err => exact (get_plannable_err_iff cfg request.spot_prices request.after
        request.before).mp hgp
    | panicked => simp only [hgp] at h; cases h
    | ok P =>
      simp only [hgp] at h
      by_cases hPe : P.isEmpty
      · rw [if_pos hPe] at h
        cases h
      · rw [if_neg hPe] at h
        cases hbl : bestLoop request.load_profile.total_duration_seconds
            request.planning_strategy request.load_profile [] P with
        | none => simp only [hbl] at h; cases h
        | some best => simp only [hbl] at h; cases h
  · intro h
    have hgp := (get_plannable_err_iff cfg request.spot_prices request.after
      request.before).mpr h
    unfold get_best_spot_prices
    simp only [hgp]
  · intro h
    unfold get_best_spot_prices
    simp only [h]
    rfl
  · intro P hP hcands
    unfold get_best_spot_prices
    simp only [hP]
    cases P with
    | nil => rfl
    | cons p rest =>
      rw [if_neg (by simp)]
      have hcn : candidateAt request.load_profile.total_duration_seconds (p :: rest) =
          none := by
        have hcons := completeCandidates_cons request.load_profile.total_duration_seconds
          p rest
        cases hca : candidateAt request.load_profile.total_duration_seconds (p :: rest) with
        | none => rfl
        | some c =>
          rw [hca] at hcons
          rw [hcons] at hcands
          cases hcands
      have hbrk : (extendBlock request.load_profile.total_duration_seconds
          p.duration_seconds rest).2 < request.load_profile.total_duration_seconds := by
        by_contra hge
        simp only [candidateAt] at hcn
        rw [if_neg hge] at hcn
        cases hcn
      simp only [bestLoop]
      rw [if_pos hbrk]

theorem c4_error_channel_witness :
    (get_best_spot_prices cfgC3 reqC3 = .err ↔ cfgC3.local_time_zone = none) ∧
    (get_plannable_spot_prices cfgC3 reqC3.spot_prices reqC3.after reqC3.before = .ok [] →
      get_best_spot_prices cfgC3 reqC3 = .ok ⟨[], reqC3.load_profile⟩) ∧
    (∀ P, get_plannable_spot_prices cfgC3 reqC3.spot_prices reqC3.after reqC3.before =
        .ok P →
      completeCandidates reqC3.load_profile.total_duration_seconds P = [] →
      get_best_spot_prices cfgC3 reqC3 = .ok ⟨[], reqC3.load_profile⟩) :=
  c4_error_channel cfgC3 reqC3

/-- C8: the planner is deterministic — identical configuration and request
values give identical responses; the embedding is a pure function of the
configuration and the request, reflecting that the Rust method takes `&self`
with no interior mutability, global state or randomness. -/
theorem c8_deterministic (cfg1 cfg2 : SpotPricePlannerConfig) (req1 req2 : PlanningRequest)
    (hc : cfg1 = cfg2) (hr : req1 = req2) :
    get_best_spot_prices cfg1 req1 = get_best_spot_prices cfg2 req2 := by
  rw [hc, hr]

theorem c8_deterministic_witness :
    cfgC3 = cfgC3 ∧ reqC3 = reqC3 ∧
    get_best_spot_prices cfgC3 reqC3 = get_best_spot_prices cfgC3 reqC3 :=
  ⟨rfl, rfl, c8_deterministic cfgC3 cfgC3 reqC3 reqC3 rfl rfl⟩

theorem bestLoop_invariant (required : Int) (strategy : PlanningStrategy) (lp : LoadProfile)
    (P : List SpotPrice) :
    ∀ (l best out : List SpotPrice),
    l.IsSuffix P →
    (best = [] ∨ (best.IsInfix P ∧ required ≤ sumDuration best)) →
    bestLoop required strategy lp best l = some out →
    out = [] ∨ (out.IsInfix P ∧ required ≤ sumDuration out) := by
  intro l
  induction l with
  | nil =>
    intro best out _ hbest hout
    simp only [bestLoop, Option.some_inj] at hout
    rw [← hout]
    exact hbest
  | cons p rest ih =>
    intro best out hsuf hbest hout
    have hrest : rest.IsSuffix P := (List.suffix_cons p rest).trans hsuf
    simp only [bestLoop] at hout
    by_cases hbrk : (extendBlock required p.duration_seconds rest).2 < required
    · rw [if_pos hbrk] at hout
      rw [← Option.some_inj.mp hout]
      exact hbest
    · rw [if_neg hbrk] at hout
      have hsel : (p :: (extendBlock required p.duration_seconds rest).1).IsInfix P ∧
          required ≤ sumDuration (p :: (extendBlock required p.duration_seconds rest).1) := by
        constructor
        · obtain ⟨t, ht⟩ := extendBlock_prefix required rest p.duration_seconds
          obtain ⟨u, hu⟩ := hsuf
          exact ⟨u, t, by rw [List.append_assoc, List.cons_append, ht, hu]⟩
        · rw [sumDuration_cons, ← extendBlock_sum]
          omega
      by_cases hbe : best.isEmpty
      · rw [if_pos hbe] at hout
        exact ih _ out hrest (Or.inr hsel) hout
      · rw [if_neg hbe] at hout
        cases hpv : total_price_for_load best lp none with
        | none => simp only [hpv] at hout; cases hout
        | some pv =>
          cases hcv : total_price_for_load (p :: (extendBlock required p.duration_seconds
              rest).1) lp none with
          | none => simp only [hpv, hcv] at hout; cases hout
          | some cv =>
            simp only [hpv, hcv] at hout
            cases strategy with
            | LowestPrice =>
              by_cases hlt : cv < pv
              · rw [if_pos hlt] at hout
                exact ih _ out hrest (Or.inr hsel) hout
              · rw [if_neg hlt] at hout
                exact ih _ out hrest hbest hout
            | HighestPrice =>
              by_cases hlt : cv > pv
              · rw [if_pos hlt] at hout
                exact ih _ out hrest (Or.inr hsel) hout
              · rw [if_neg hlt] at hout
                exact ih _ out hrest hbest hout

/-- C10: every `Ok` response of `get_best_spot_prices` echoes the request's
load profile, and its spot-price list is either empty or a contiguous run
(consecutive infix, in original order) of the plannable-filtered input whose
summed duration reaches the load profile's total duration — a complete block
or nothing, never a partial block. -/
theorem c10_response_block_invariant (cfg : SpotPricePlannerConfig)
    (request : PlanningRequest) (P : List SpotPrice) (resp : PlanningResponse)
    (hplan : get_plannable_spot_prices cfg request.spot_prices request.after request.before =
      .ok P)
    (hok : get_best_spot_prices cfg request = .ok resp) :
    resp.load_profile = request.load_profile ∧
    (resp.spot_prices = [] ∨
      (resp.spot_prices.IsInfix P ∧
        request.load_profile.total_duration_seconds ≤ sumDuration resp.spot_prices)) := by
  unfold get_best_spot_prices at hok
  simp only [hplan] at hok
  by_cases hPe : P.isEmpty
  · rw [if_pos hPe] at hok
    simp only [Outcome.ok.injEq] at hok
    rw [← hok]
    exact ⟨rfl, Or.inl (List.isEmpty_iff.mp hPe)⟩
  · rw [if_neg hPe] at hok
    cases hbl : bestLoop request.load_profile.total_duration_seconds
        request.planning_strategy request.load_profile [] P with
    | none => simp only [hbl] at hok; cases hok
    | some out =>
      simp only [hbl, Outcome.ok.injEq] at hok
      rw [← hok]
      refine ⟨rfl, ?_⟩
      exact bestLoop_invariant request.load_profile.total_duration_seconds
        request.planning_strategy request.load_profile P P [] out (List.suffix_refl P)
        (Or.inl rfl) hbl

/-- The response selected for `reqC3`: the cheapest complete block. -/
def respC10 : PlanningResponse :=
  ⟨[⟨none, none, satApr16 + 2, satApr16 + 4, 2, 0, 0, 0⟩,
    ⟨none, none, satApr16 + 4, satApr16 + 6, 1, 0, 0, 0⟩], lpC3⟩

theorem c10_response_block_invariant_witness :
    (get_plannable_spot_prices cfgC3 reqC3.spot_prices reqC3.after reqC3.before =
      .ok pricesC3) ∧
    (get_best_spot_prices cfgC3 reqC3 = .ok respC10) ∧
    (respC10.load_profile = reqC3.load_profile ∧
      (respC10.spot_prices = [] ∨
        (respC10.spot_prices.IsInfix pricesC3 ∧
          reqC3.load_profile.total_duration_seconds ≤ sumDuration respC10.spot_prices))) :=
  have hok : get_best_spot_prices cfgC3 reqC3 = .ok respC10 := by
    have h1 : get_plannable_spot_prices cfgC3 reqC3.spot_prices reqC3.after reqC3.before =
        .ok pricesC3 := by decide
    unfold get_best_spot_prices
    rw [h1]
    norm_num [bestLoop, extendBlock, total_price_for_load, buildPriceSeries, powerSeries,
      pricePerSecond, asUsize, LoadProfile.total_duration_seconds, SpotPrice.duration_seconds,
      SpotPrice.total_price, reqC3, lpC3, pricesC3, respC10, satApr16, List.replicate,
      List.cons_ne_nil, Int.toNat]
  ⟨by decide, hok,
    c10_response_block_invariant cfgC3 reqC3 pricesC3 respC10 (by decide) hok⟩
